import Mathlib

/-!
Verification of the packfile-ingestion git client (`app/` python sources)
against its natural-language specification.

Bytes are modelled as `Nat` values (the python sources only ever produce
values below 256); byte strings are `List Nat`.  Python functions that can
raise become `Except`-valued functions; the distinct `raise` sites are
mapped to distinct constructors of `GErr`.  Streams (`BinaryIO` plus the
parser's running offset) are modelled as a byte list together with a
cursor.
-/

set_option maxRecDepth 4000

/-- Error kinds, one constructor per distinct failure site of the python
sources (`ValueError`, `EOFError`, `IndexError`, ... at the various raise
points). -/
inductive GErr : Type
  | eof                    -- `_read_bytes`: EOFError("Unexpected end of file")
  | badPktLength           -- `_read_pktline`: ValueError for length 1..3 or non-hex
  | noPackSignature        -- `_skip_until_pack`: EOF without PACK
  | seekError              -- negative seek (OSError in python)
  | indexError             -- IndexError from `delta_data[pos]`
  | baseSizeMismatch       -- `_apply_delta`: base size validation
  | targetSizeMismatch     -- `_apply_delta`: target size validation
  | unresolvedDelta        -- `_resolve_deltas`: "Could not resolve all delta objects"
  | outOfFuel              -- artificial: fuel exhaustion of a modelled loop
  | notFound               -- `_read_git_object`: missing object file
  | notATree               -- `_checkout_tree`: "Expected tree object"
  | notABlob               -- `_checkout_tree`: "Expected blob object"
  | badTreeEntry           -- `_parse_tree`: ValueError from index/split
  | badOctal               -- `int(mode, 8)` ValueError
  deriving DecidableEq, Repr

deriving instance DecidableEq for Except

/-- Truncation to 32 bits, as python's `& 0xffffffff`-free arithmetic is
modelled explicitly. -/
def w32 (x : Nat) : Nat := x % 4294967296

/-- 32-bit left rotation. -/
def rotl32 (s x : Nat) : Nat := (w32 ((w32 x) <<< s)) ||| ((w32 x) >>> (32 - s))

/-- Big-endian byte rendering of `n` on `k` bytes. -/
def natToBytesBE : Nat → Nat → List Nat
  | _, 0 => []
  | n, k + 1 => natToBytesBE (n >>> 8) k ++ [n % 256]

/-- Group four consecutive bytes into one big-endian 32-bit word
(SHA-1 block schedule input). -/
def bytesToWords : List Nat → List Nat
  | b0 :: b1 :: b2 :: b3 :: rest =>
      (b0 * 16777216 + b1 * 65536 + b2 * 256 + b3) :: bytesToWords rest
  | _ => []

/-- Extend the 16-word schedule by `n` further words
(`w[i] = rotl1 (w[i-3] xor w[i-8] xor w[i-14] xor w[i-16])`). -/
def sha1Expand : List Nat → Nat → List Nat
  | ws, 0 => ws
  | ws, n + 1 =>
      sha1Expand
        (ws ++ [rotl32 1 (((ws.getD (ws.length - 3) 0) ^^^ (ws.getD (ws.length - 8) 0)) ^^^
          ((ws.getD (ws.length - 14) 0) ^^^ (ws.getD (ws.length - 16) 0)))]) n

/-- SHA-1 round function. -/
def sha1F (i b c d : Nat) : Nat :=
  if i < 20 then (b &&& c) ||| ((b ^^^ 4294967295) &&& d)
  else if i < 40 then (b ^^^ c) ^^^ d
  else if i < 60 then ((b &&& c) ||| (b &&& d)) ||| (c &&& d)
  else (b ^^^ c) ^^^ d

/-- SHA-1 round constants. -/
def sha1K (i : Nat) : Nat :=
  if i < 20 then 1518500249
  else if i < 40 then 1859775393
  else if i < 60 then 2400959708
  else 3395469782

/-- The 80 SHA-1 rounds over the expanded schedule. -/
def sha1Rounds : Nat → List Nat → Nat × Nat × Nat × Nat × Nat → Nat × Nat × Nat × Nat × Nat
  | _, [], st => st
  | i, word :: ws, (a, b, c, d, e) =>
      sha1Rounds (i + 1) ws
        (w32 (rotl32 5 a + sha1F i b c d + e + sha1K i + word), a, rotl32 30 b, c, d)

/-- Compression of a single 64-byte block into the running state. -/
def sha1Block (st : Nat × Nat × Nat × Nat × Nat) (block : List Nat) :
    Nat × Nat × Nat × Nat × Nat :=
  match st, sha1Rounds 0 (sha1Expand (bytesToWords block) 64) st with
  | (h0, h1, h2, h3, h4), (a, b, c, d, e) =>
      (w32 (h0 + a), w32 (h1 + b), w32 (h2 + c), w32 (h3 + d), w32 (h4 + e))

/-- Split a byte list into 64-byte chunks (fuel-based structural recursion;
the fuel `l.length` always suffices since each step consumes 64 bytes). -/
def chunks64Aux : Nat → List Nat → List (List Nat)
  | 0, _ => []
  | _, [] => []
  | n + 1, l => l.take 64 :: chunks64Aux n (l.drop 64)

/-- Split a byte list into 64-byte chunks. -/
def chunks64 (l : List Nat) : List (List Nat) := chunks64Aux l.length l

/-- SHA-1 message padding: `0x80`, zeros up to 56 mod 64, then the bit
length on 8 big-endian bytes. -/
def sha1Pad (msg : List Nat) : List Nat :=
  msg ++ [128] ++ List.replicate ((119 - msg.length % 64) % 64) 0 ++
    natToBytesBE (msg.length * 8) 8

/-- The 20-byte SHA-1 digest of a byte sequence (`hashlib.sha1(...).digest()`). -/
def sha1Digest (msg : List Nat) : List Nat :=
  match (chunks64 (sha1Pad msg)).foldl sha1Block
      (1732584193, 4023233417, 2562383102, 271733878, 3285377520) with
  | (h0, h1, h2, h3, h4) =>
      natToBytesBE h0 4 ++ natToBytesBE h1 4 ++ natToBytesBE h2 4 ++
        natToBytesBE h3 4 ++ natToBytesBE h4 4

/-- Lowercase hex character for a nibble. -/
def hexNib (n : Nat) : Char := "0123456789abcdef".data.getD n '0'

/-- Lowercase hex rendering of a byte sequence (python `bytes.hex()` /
`hexdigest()`). -/
def bytesToHex (l : List Nat) : String :=
  String.mk (l.foldr (fun b acc => hexNib (b / 16) :: hexNib (b % 16) :: acc) [])

/-- ASCII bytes of a string (python `str.encode()`; all strings involved
are ASCII, where UTF-8 agrees with code points). -/
def bytesOfString (s : String) : List Nat := s.data.map Char.toNat

/-- `encoder.encode_object` / the framing inside `git_object.create_git_object`:
`<type> <decimal length>\x00<payload>`. -/
def encodeObject (contents : List Nat) (objType : String) : List Nat :=
  bytesOfString objType ++ [32] ++ bytesOfString (toString contents.length) ++ [0] ++ contents

/-- The object id computed by `git_object.create_git_object`
(`sha1(framed).hexdigest()`), independent of the `should_write` flag. -/
def createGitObjectId (contents : List Nat) (objType : String) : String :=
  bytesToHex (sha1Digest (encodeObject contents objType))

/-- Association-list model of a python `dict` keyed by strings: updating an
existing key keeps its position, a new key is appended (python insertion
order). -/
def listLookup {α : Type} : List (String × α) → String → Option α
  | [], _ => none
  | (k, v) :: rest, key => if k = key then some v else listLookup rest key

/-- `dict` update: replace in place or append. -/
def listInsert {α : Type} (key : String) (v : α) : List (String × α) → List (String × α)
  | [] => [(key, v)]
  | (k, w) :: rest => if k = key then (key, v) :: rest else (k, w) :: listInsert key v rest

/-- The object store as a map from id to stored file bytes
(`.git/objects/<id[:2]>/<id[2:]>` holds `compress(framed)`). -/
def putObject (compress : List Nat → List Nat) (store : List (String × List Nat))
    (contents : List Nat) (objType : String) : String × List (String × List Nat) :=
  let objectHash := createGitObjectId contents objType
  (objectHash, listInsert objectHash (compress (encodeObject contents objType)) store)

/-- Value of an ASCII hex-digit byte. -/
def hexVal? (b : Nat) : Option Nat :=
  if 48 ≤ b ∧ b ≤ 57 then some (b - 48)
  else if 97 ≤ b ∧ b ≤ 102 then some (b - 87)
  else if 65 ≤ b ∧ b ≤ 70 then some (b - 55)
  else none

/-- Accumulate hex digits. -/
def parseHexAux : List Nat → Nat → Option Nat
  | [], acc => some acc
  | b :: rest, acc =>
      match hexVal? b with
      | none => none
      | some v => parseHexAux rest (acc * 16 + v)

/-- `int(bytes, 16)`: fails on empty input or any non-hex byte. -/
def parseHex (l : List Nat) : Option Nat :=
  if l.isEmpty then none else parseHexAux l 0

/-- `pkt_line.decode_pkt_line`: read `int(line[:4], 16)`; on 0 return
`(None, 0)`, otherwise return `(line[4:length], length)` (the python
`.decode()` to `str` is modelled as the identity on the payload bytes). -/
def decodePktLine (line : List Nat) : Except GErr (Option (List Nat) × Nat) :=
  match parseHex (line.take 4) with
  | none => .error .badPktLength
  | some length =>
      if length = 0 then .ok (none, 0)
      else .ok (some ((line.take length).drop 4), length)

/-- `PackfileParser._read_bytes`: read up to `n` bytes at `pos`; raises
`EOFError` only when nothing at all was read and `n > 0`. -/
def readBytesS (bs : List Nat) (pos n : Nat) : Except GErr (List Nat × Nat) :=
  let data := (bs.drop pos).take n
  if data.isEmpty ∧ 0 < n then .error .eof else .ok (data, pos + data.length)

/-- `PackfileParser._read_pktline`: 4 hex bytes of length; flush returns
empty content; lengths 1..3 raise; otherwise read `length - 4` bytes. -/
def readPktlineS (bs : List Nat) (pos : Nat) : Except GErr (List Nat × Nat) := do
  let (lenBytes, pos1) ← readBytesS bs pos 4
  match parseHex lenBytes with
  | none => .error .badPktLength
  | some length =>
      if length = 0 then pure ([], pos1)
      else if length < 4 then .error .badPktLength
      else do
        let (content, pos2) ← readBytesS bs pos1 (length - 4)
        pure (content, pos2)

/-- `self._read_bytes(1)[0]` inside the varint reader. -/
def getByteE (bs : List Nat) (pos : Nat) : Except GErr Nat :=
  match (bs.drop pos).take 1 with
  | [] => .error .eof
  | b :: _ => .ok b

/-- Continuation loop of `PackfileParser._read_varint` (fuel-based; the
fuel passed by callers always suffices since each step consumes a byte). -/
def readVarintLoop : Nat → List Nat → Nat → Nat → Nat → Except GErr (Nat × Nat)
  | 0, _, _, _, _ => .error .outOfFuel
  | fuel + 1, bs, pos, size, shift => do
      let b ← getByteE bs pos
      let size2 := size ||| ((b &&& 127) <<< shift)
      if b &&& 128 ≠ 0 then readVarintLoop fuel bs (pos + 1) size2 (shift + 7)
      else pure (size2, pos + 1)

/-- `types.get(type_id, f"unknown_{type_id}")`. -/
def typeName (typeId : Nat) : String :=
  if typeId = 1 then "commit"
  else if typeId = 2 then "tree"
  else if typeId = 3 then "blob"
  else if typeId = 4 then "tag"
  else if typeId = 6 then "ofs_delta"
  else if typeId = 7 then "ref_delta"
  else "unknown_" ++ toString typeId

/-- `PackfileParser._read_varint`: first byte carries the type id in bits
4..6 and the low 4 size bits; continuation bytes contribute 7 bits each. -/
def readVarint (bs : List Nat) (pos : Nat) : Except GErr ((Nat × String) × Nat) := do
  let b ← getByteE bs pos
  let typeId := (b >>> 4) &&& 7
  let size0 := b &&& 15
  if b &&& 128 ≠ 0 then do
    let (size, pos2) ← readVarintLoop (bs.length + 1) bs (pos + 1) size0 4
    pure ((size, typeName typeId), pos2)
  else pure ((size0, typeName typeId), pos + 1)

/-- `delta_data[pos]`: IndexError past the end. -/
def getByteD (dd : List Nat) (pos : Nat) : Except GErr Nat :=
  match (dd.drop pos).take 1 with
  | [] => .error .indexError
  | b :: _ => .ok b

/-- The 7-bit little-endian size varints at the head of a delta stream
(`_apply_delta`, source and target sizes). -/
def parseDeltaSize : Nat → List Nat → Nat → Nat → Nat → Except GErr (Nat × Nat)
  | 0, _, _, _, _ => .error .outOfFuel
  | fuel + 1, dd, pos, size, shift => do
      let b ← getByteD dd pos
      let size2 := size ||| ((b &&& 127) <<< shift)
      if b &&& 128 ≠ 0 then parseDeltaSize fuel dd (pos + 1) size2 (shift + 7)
      else pure (size2, pos + 1)

/-- Conditional one-byte read used by the copy command: if `flag`, read a
byte and contribute it at `shift`; otherwise contribute 0. -/
def readIf (flag : Bool) (dd : List Nat) (pos shift : Nat) : Except GErr (Nat × Nat) :=
  if flag then do
    let b ← getByteD dd pos
    pure (b <<< shift, pos + 1)
  else pure (0, pos)

/-- Instruction loop of `_apply_delta`: copy commands (high bit set) read
optional offset/size bytes and slice the base; other commands insert the
next `cmd` bytes; slices truncate like python slices. -/
def applyDeltaLoop : Nat → List Nat → List Nat → Nat → List Nat → Except GErr (List Nat)
  | 0, _, _, _, _ => .error .outOfFuel
  | fuel + 1, base, dd, pos, result =>
      if pos < dd.length then do
        let cmd ← getByteD dd pos
        if cmd &&& 128 ≠ 0 then do
          let (o0, p2) ← readIf ((cmd &&& 1) != 0) dd (pos + 1) 0
          let (o1, p3) ← readIf ((cmd &&& 2) != 0) dd p2 8
          let (o2, p4) ← readIf ((cmd &&& 4) != 0) dd p3 16
          let (o3, p5) ← readIf ((cmd &&& 8) != 0) dd p4 24
          let (s0, p6) ← readIf ((cmd &&& 16) != 0) dd p5 0
          let (s1, p7) ← readIf ((cmd &&& 32) != 0) dd p6 8
          let (s2, p8) ← readIf ((cmd &&& 64) != 0) dd p7 16
          let copyOffset := ((o0 ||| o1) ||| o2) ||| o3
          let copySize0 := (s0 ||| s1) ||| s2
          let copySize := if copySize0 = 0 then 65536 else copySize0
          applyDeltaLoop fuel base dd p8 (result ++ (base.drop copyOffset).take copySize)
        else
          applyDeltaLoop fuel base dd (pos + 1 + cmd) (result ++ (dd.drop (pos + 1)).take cmd)
      else pure result

/-- `PackfileParser._apply_delta`. -/
def applyDelta (base dd : List Nat) : Except GErr (List Nat) := do
  let (sourceSize, pos1) ← parseDeltaSize (dd.length + 1) dd 0 0 0
  let (targetSize, pos2) ← parseDeltaSize (dd.length + 1) dd pos1 0 0
  if base.length ≠ sourceSize then .error .baseSizeMismatch
  else do
    let result ← applyDeltaLoop (dd.length + 1) base dd pos2 []
    if result.length ≠ targetSize then .error .targetSizeMismatch
    else pure result

/-- `PackObject` dataclass of `packfile.py`. -/
structure PackObject where
  type : String
  size : Nat
  data : List Nat
  offset : Nat
  baseSha : Option String := none
  deriving DecidableEq, Repr

/-- Observable events of clone's ingest phase: a delta instruction stream
being applied against a base, and an object file being written into the
content-addressed store. -/
inductive IngestEvent : Type
  | applyDelta (baseSha : String)
  | writeStore (id : String)
  deriving DecidableEq, Repr

/-- The hash used by `_resolve_deltas`
(`create_git_object(data, type, should_write=False)`). -/
def gitHash (t : String) (d : List Nat) : String := createGitObjectId d t

/-- First loop of `_resolve_deltas`: skip `ofs_delta` entries, collect
`ref_delta` entries in order, and seed the `base_objects` dict with every
other entry keyed by its object id.  Parametric in the hash so that
injectivity can be assumed abstractly; the code instantiates it with
`gitHash`. -/
def collectBases (hash : String → List Nat → String) :
    List (String × PackObject) → List PackObject → List PackObject →
    List (String × PackObject) × List PackObject
  | acc, ds, [] => (acc, ds)
  | acc, ds, o :: rest =>
      if o.type = "ofs_delta" then collectBases hash acc ds rest
      else if o.type = "ref_delta" then collectBases hash acc (ds ++ [o]) rest
      else collectBases hash (listInsert (hash o.type o.data) o acc) ds rest

/-- One pass of the fixpoint loop of `_resolve_deltas`: try every pending
delta in order; a delta whose base id is in the dict is applied at once
(the resolved object becomes a base for later deltas of the same pass),
the others are kept in order.  Returns the updated dict, the
`made_progress` flag, the remaining deltas and the apply events. -/
def onePass (hash : String → List Nat → String) :
    List (String × PackObject) → List PackObject →
    Except GErr (List (String × PackObject) × Bool × List PackObject × List IngestEvent)
  | base, [] => .ok (base, false, [], [])
  | base, d :: rest =>
      match listLookup base (d.baseSha.getD "") with
      | none => do
          let (b, p, r, ev) ← onePass hash base rest
          pure (b, p, d :: r, ev)
      | some baseObj => do
          let resolved ← applyDelta baseObj.data d.data
          let (b, _, r, ev) ← onePass hash
            (listInsert (hash baseObj.type resolved)
              { type := baseObj.type, size := resolved.length, data := resolved,
                offset := d.offset, baseSha := none } base) rest
          pure (b, true, r, IngestEvent.applyDelta (d.baseSha.getD "") :: ev)

/-- The `while delta_objects:` fixpoint loop: run passes until no delta is
pending; raise the unresolved-delta `ValueError` when a pass makes no
progress while deltas remain.  Fuel-based: every executed pass either
empties or strictly shrinks the pending list, so the fuel passed by
`resolveDeltasTr` suffices. -/
def resolveLoop (hash : String → List Nat → String) :
    Nat → List (String × PackObject) → List PackObject →
    Except GErr (List (String × PackObject) × List IngestEvent)
  | 0, _, _ => .error .outOfFuel
  | fuel + 1, base, deltas =>
      if deltas.isEmpty then .ok (base, [])
      else do
        let (b, progress, remaining, ev) ← onePass hash base deltas
        if progress = false ∧ remaining ≠ [] then .error .unresolvedDelta
        else do
          let (b2, ev2) ← resolveLoop hash fuel b remaining
          pure (b2, ev ++ ev2)

/-- `PackfileParser._resolve_deltas` with its event trace: split the
entries, run the fixpoint loop, and return `list(base_objects.values())`
(insertion-ordered dict values). -/
def resolveDeltasTr (hash : String → List Nat → String) (objects : List PackObject) :
    Except GErr (List PackObject × List IngestEvent) := do
  let (base, deltas) := collectBases hash [] [] objects
  let (finalBase, ev) ← resolveLoop hash (deltas.length + 1) base deltas
  pure (finalBase.map Prod.snd, ev)

/-- `PackfileParser._resolve_deltas`, result only. -/
def resolveDeltas (hash : String → List Nat → String) (objects : List PackObject) :
    Except GErr (List PackObject) :=
  (resolveDeltasTr hash objects).map Prod.fst

/-- The ingest phase of `commands.clone` on parsed pack entries: resolve
all deltas (`parse_packfile`), then write every materialized object to the
object store (`create_git_object(..., should_write=True)` loop), in
output order.  The event trace interleaves nothing: resolution happens
first, writes after. -/
def cloneIngestEvents (objects : List PackObject) : Except GErr (List IngestEvent) := do
  let (out, ev) ← resolveDeltasTr gitHash objects
  pure (ev ++ out.map (fun o => IngestEvent.writeStore (gitHash o.type o.data)))

/-- An id is resolvable from the pack when it is the id of a non-delta
entry, or the id of the result of applying a ref-delta entry of the pack
to a resolvable base (base chains grounded in non-delta entries). -/
inductive ResolvesTo (hash : String → List Nat → String) (objects : List PackObject) :
    String → String × List Nat → Prop
  | base (obj : PackObject) (hmem : obj ∈ objects) (h1 : obj.type ≠ "ofs_delta")
      (h2 : obj.type ≠ "ref_delta") :
      ResolvesTo hash objects (hash obj.type obj.data) (obj.type, obj.data)
  | delta (d : PackObject) (s t : String) (b r : List Nat)
      (hmem : d ∈ objects) (hty : d.type = "ref_delta") (hsha : d.baseSha = some s)
      (hbase : ResolvesTo hash objects s (t, b))
      (happ : applyDelta b d.data = Except.ok r) :
      ResolvesTo hash objects (hash t r) (t, r)

/-- Every ref-delta entry has a grounded base chain along which the delta
applications succeed. -/
def Grounded (hash : String → List Nat → String) (objects : List PackObject) : Prop :=
  ∀ d ∈ objects, d.type = "ref_delta" →
    ∃ s t b r, d.baseSha = some s ∧ ResolvesTo hash objects s (t, b) ∧
      applyDelta b d.data = Except.ok r

/-- Dict invariant of the resolver: every entry is keyed by the hash of
its object, and that object is resolvable from the pack. -/
def BaseInv (hash : String → List Nat → String) (objects : List PackObject)
    (m : List (String × PackObject)) : Prop :=
  ∀ p ∈ m, p.1 = hash p.2.type p.2.data ∧
    ResolvesTo hash objects p.1 (p.2.type, p.2.data)

/-- Every non-delta entry of the pack is present in the dict. -/
def NonDeltaInMap (hash : String → List Nat → String) (objects : List PackObject)
    (m : List (String × PackObject)) : Prop :=
  ∀ obj ∈ objects, obj.type ≠ "ofs_delta" → obj.type ≠ "ref_delta" →
    (listLookup m (hash obj.type obj.data)).isSome

/-- Pending deltas are ref-delta entries of the pack. -/
def PendInv (objects pending : List PackObject) : Prop :=
  ∀ d ∈ pending, d ∈ objects ∧ d.type = "ref_delta"

/-- A ref-delta entry of the pack that is no longer pending has already
deposited its resolved object in the dict. -/
def ResolvedInv (hash : String → List Nat → String) (objects : List PackObject)
    (m : List (String × PackObject)) (pending : List PackObject) : Prop :=
  ∀ d ∈ objects, d.type = "ref_delta" → d ∉ pending →
    ∀ s t b r, d.baseSha = some s → ResolvesTo hash objects s (t, b) →
      applyDelta b d.data = Except.ok r → (listLookup m (hash t r)).isSome

/-- Injection of a (type, payload) pair into `Nat`, used to build a
provably injective stand-in hash for the abstract-hash theorems. -/
def encodePackPair (q : String × List Nat) : Nat :=
  Nat.pair (Encodable.encode (q.1.data.map Char.toNat)) (Encodable.encode q.2)

/-- A concrete injective content hash (unary-encoded pair). -/
def wHash (t : String) (d : List Nat) : String :=
  String.mk (List.replicate (encodePackPair (t, d)) 'a')

/-- `data.index(b"\x00", i)`: position of the first NUL at or after `i`. -/
def findNullFrom (data : List Nat) (i : Nat) : Option Nat :=
  match (data.drop i).findIdx? (fun b => b == 0) with
  | none => none
  | some j => some (i + j)

/-- python `mode_name.split(" ")` unpacked into exactly two parts: fails
unless the byte string contains exactly one space. -/
def splitOnSpace (l : List Nat) : Option (List Nat × List Nat) :=
  match l.findIdx? (fun b => b == 32) with
  | none => none
  | some j =>
      if (l.drop (j + 1)).any (fun b => b == 32) then none
      else some (l.take j, l.drop (j + 1))

/-- python bytes `.decode()` for the ASCII content handled here. -/
def stringOfBytes (l : List Nat) : String := String.mk (l.map Char.ofNat)

/-- `_parse_tree` loop: at each position find the NUL, split mode and name
on the space, render the next 20 bytes as the hex id, continue after them.
Fuel-based; each entry advances the cursor by at least 21. -/
def parseTreeLoop : Nat → List Nat → Nat → Except GErr (List (String × String × String))
  | 0, _, _ => .error .outOfFuel
  | fuel + 1, data, i =>
      if i < data.length then
        match findNullFrom data i with
        | none => .error .badTreeEntry
        | some nullPos =>
            match splitOnSpace ((data.take nullPos).drop i) with
            | none => .error .badTreeEntry
            | some (modeB, nameB) => do
                let entries ← parseTreeLoop fuel data (nullPos + 1 + 20)
                pure ((stringOfBytes modeB, stringOfBytes nameB,
                  bytesToHex ((data.drop (nullPos + 1)).take 20)) :: entries)
      else pure []

/-- `commands._parse_tree`. -/
def parseTree (data : List Nat) : Except GErr (List (String × String × String)) :=
  parseTreeLoop (data.length + 1) data 0

/-- `commands._read_git_object` against a store modelled as a map from id
to the decoded (type, payload) of the stored file; a missing id is the
python `FileNotFoundError`. -/
def readGitObject (store : List (String × String × List Nat)) (sha : String) :
    Except GErr (String × List Nat) :=
  match listLookup store sha with
  | none => .error .notFound
  | some tv => .ok tv

/-- Octal digits accumulator for `int(mode, 8)`. -/
def parseOctalAux : List Char → Nat → Option Nat
  | [], acc => some acc
  | c :: rest, acc =>
      if 48 ≤ c.toNat ∧ c.toNat ≤ 55 then parseOctalAux rest (acc * 8 + (c.toNat - 48))
      else none

/-- `int(mode, 8)`: fails on empty or non-octal input (ValueError). -/
def parseOctal (s : String) : Option Nat :=
  if s.data.isEmpty then none else parseOctalAux s.data 0

/-- `os.path.join` for the relative paths used by checkout. -/
def pathJoin (p n : String) : String := if p = "" then n else p ++ "/" ++ n

/-- Filesystem effects of `_checkout_tree`, in program order. -/
inductive FsAction : Type
  | mkdirAct (path : String)
  | writeAct (path : String) (bytes : List Nat)
  | chmodAct (path : String) (mode : Nat)
  deriving DecidableEq, Repr

/-- The entry walk of `commands._checkout_tree`: mode `40000` creates the
directory and recurses into the entry's tree object; EVERY other mode is
treated as a file entry whose object must be a blob, written and then
chmod-ed to `int(mode, 8)`.  Fuel bounds the recursion (python's stack);
failures discard the collected actions. -/
def checkoutEntries : Nat → List (String × String × List Nat) →
    List (String × String × String) → String → Except GErr (List FsAction)
  | _, _, [], _ => pure []
  | 0, _, _ :: _, _ => .error .outOfFuel
  | fuel + 1, store, (mode, name, sha) :: rest, path =>
      if mode = "40000" then do
        let tv ← readGitObject store sha
        if tv.1 = "tree" then do
          let entries ← parseTree tv.2
          let subActs ← checkoutEntries fuel store entries (pathJoin path name)
          let restActs ← checkoutEntries fuel store rest path
          pure (FsAction.mkdirAct (pathJoin path name) :: subActs ++ restActs)
        else .error .notATree
      else do
        let tv ← readGitObject store sha
        if tv.1 = "blob" then
          match parseOctal mode with
          | none => .error .badOctal
          | some md => do
              let restActs ← checkoutEntries fuel store rest path
              pure (FsAction.writeAct (pathJoin path name) tv.2 ::
                FsAction.chmodAct (pathJoin path name) md :: restActs)
        else .error .notABlob

/-- `commands._checkout_tree` on a root tree id. -/
def checkoutTree (store : List (String × String × List Nat)) (sha path : String)
    (fuel : Nat) : Except GErr (List FsAction) := do
  let tv ← readGitObject store sha
  if tv.1 = "tree" then do
    let entries ← parseTree tv.2
    checkoutEntries fuel store entries path
  else .error .notATree

/-- The 4-byte `PACK` signature. -/
def packSig : List Nat := [80, 65, 67, 75]

/-- `PackfileParser._skip_until_pack` on a seekable stream: read up to 4
bytes; empty read raises; on `PACK` seek back 4 (cursor ends at the match);
otherwise seek back 3 (net advance of one byte on a full read).  A
backward seek before position 0 is the python `OSError`.  Fuel-based: the
loop does not terminate on every input. -/
def skipUntilPack (bs : List Nat) : Nat → Nat → Except GErr Nat
  | 0, _ => .error .outOfFuel
  | fuel + 1, c =>
      let data := (bs.drop c).take 4
      if data.isEmpty then .error .noPackSignature
      else if data = packSig then .ok c
      else if c + data.length < 3 then .error .seekError
      else skipUntilPack bs fuel (c + data.length - 3)

/-- C8: hashing the 5-byte blob `hello` yields the documented id, and the
framed bytes that are hashed (and, after zlib, stored) are exactly
`blob 5\x00hello`. -/
theorem hashObject_hello :
    createGitObjectId (bytesOfString "hello") "blob" =
      "b6fc4c620b67d95f953a5c1c1230aaab5db5a1b0" ∧
    encodeObject (bytesOfString "hello") "blob" =
      [98, 108, 111, 98, 32, 53, 0, 104, 101, 108, 108, 111] := by
  constructor
  · decide
  · decide

/-- `do`-bind on a successful `Except` computation. -/
theorem exceptBind_ok {e a b : Type} (x : a) (f : a → Except e b) :
    (Except.ok x : Except e a) >>= f = f x := rfl

/-- `do`-bind on a failed `Except` computation. -/
theorem exceptBind_error {e a b : Type} (err : e) (f : a → Except e b) :
    (Except.error err : Except e a) >>= f = Except.error err := rfl

/-- `pure` on `Except` is `Except.ok`. -/
theorem exceptPure {e a : Type} (x : a) : (pure x : Except e a) = Except.ok x := rfl

/-- Updating a key that was just updated with the same value is a no-op on
the association-list dict. -/
theorem listInsert_listInsert {α : Type} (k : String) (v : α) (m : List (String × α)) :
    listInsert k v (listInsert k v m) = listInsert k v m := by
  induction m with
  | nil => simp [listInsert]
  | cons hd tl ih =>
      obtain ⟨a, b⟩ := hd
      by_cases h : a = k
      · simp [listInsert, h]
      · simp [listInsert, h, ih]

/-- Lookup after insert finds the inserted value. -/
theorem listLookup_listInsert {α : Type} (k : String) (v : α) (m : List (String × α)) :
    listLookup (listInsert k v m) k = some v := by
  induction m with
  | nil => simp [listInsert, listLookup]
  | cons hd tl ih =>
      obtain ⟨a, b⟩ := hd
      by_cases h : a = k
      · simp [listInsert, h, listLookup]
      · simp [listInsert, h, listLookup, ih]

/-- C9: the object-store `put` (`create_git_object` with `should_write=True`,
modelled with the zlib codec as an opaque deterministic `compress`
function) is idempotent: a second `put` of the same kind and payload
returns the same id, succeeds although the id's file already exists
(`put` is total: `makedirs(exist_ok=True)` and `open(..., "wb")` never
fail on existing paths), leaves the store unchanged, and the stored file
bytes are the compressed framed object after either call. -/
theorem putObject_idempotent (compress : List Nat → List Nat)
    (store : List (String × List Nat)) (contents : List Nat) (objType : String) :
    (putObject compress (putObject compress store contents objType).2 contents objType).1 =
      (putObject compress store contents objType).1 ∧
    (putObject compress (putObject compress store contents objType).2 contents objType).2 =
      (putObject compress store contents objType).2 ∧
    listLookup (putObject compress store contents objType).2
        (putObject compress store contents objType).1 =
      some (compress (encodeObject contents objType)) := by
  refine ⟨rfl, ?_, ?_⟩
  · simp only [putObject]
    exact listInsert_listInsert _ _ _
  · simp only [putObject]
    exact listLookup_listInsert _ _ _

/-- C3 counterexample: the spec's literal delta stream
`[src=5, tgt=7, 0x90 0x00 0x05, 0x02, 'H', 'I']` does NOT yield
`"worldHI"`: command `0x90` reads the single size byte `0x00`, and a copy
size of 0 is treated as `0x10000`, so the whole base is copied, the stray
`0x05` becomes an insert of five bytes, and the final length check fails
with the target-size error (python `ValueError`). -/
theorem applyDelta_c3_stream_cex :
    applyDelta (bytesOfString "world") [5, 7, 144, 0, 5, 2, 72, 73] =
      Except.error GErr.targetSizeMismatch := by decide

/-- C3 amended: with the copy command corrected to `0x91` (explicit offset
byte `0x00` and size byte `0x05`), the stream applied to `"world"` yields
exactly the 7-byte target `"worldHI"`. -/
theorem applyDelta_c3_corrected :
    applyDelta (bytesOfString "world") [5, 7, 145, 0, 5, 2, 72, 73] =
      Except.ok (bytesOfString "worldHI") := by decide

/-- C4 counterexample: a delta stream containing the command byte 0 is not
rejected: `_apply_delta` treats it as an insert of zero bytes, so the
stream `[src=0, tgt=0, 0x00]` applied to the empty base succeeds. -/
theorem applyDelta_c4_zero_cmd_cex :
    applyDelta [] [0, 0, 0] = Except.ok [] := by decide

/-- `getByteD` on an in-range position returns the byte. -/
theorem getByteD_lt (dd : List Nat) (pos : Nat) (h : pos < dd.length) :
    getByteD dd pos = Except.ok (dd.getD pos 0) := by
  unfold getByteD
  have h1 : dd.drop pos ≠ [] := by
    simp only [ne_eq, List.drop_eq_nil_iff]
    omega
  match h2 : dd.drop pos with
  | [] => exact absurd h2 h1
  | b :: rest =>
      simp only [List.take_succ_cons, List.take_zero]
      have h3 : dd[pos]? = some b := by
        have h4 := List.getElem?_drop dd pos 0
        rw [h2] at h4
        simpa using h4.symm
      rw [List.getD_eq_getElem?_getD, h3]
      rfl

/-- C4 amended: a command byte equal to 0 is a no-op: `_apply_delta`
falls into the insert branch with `cmd = 0`, appends zero bytes and
advances exactly one position; no error of any kind is raised for it. -/
theorem applyDeltaLoop_zero_cmd (fuel : Nat) (base dd : List Nat) (pos : Nat)
    (result : List Nat) (hlt : pos < dd.length) (h : dd.getD pos 0 = 0) :
    applyDeltaLoop (fuel + 1) base dd pos result =
      applyDeltaLoop fuel base dd (pos + 1) result := by
  conv_lhs => rw [applyDeltaLoop]
  rw [if_pos hlt, getByteD_lt dd pos hlt, h, exceptBind_ok]
  simp

/-- Witness for the C4 amended theorem at a concrete input. -/
theorem applyDeltaLoop_zero_cmd_inst :
    applyDeltaLoop 1 [] [0] 0 [] = applyDeltaLoop 0 [] [0] 1 [] :=
  applyDeltaLoop_zero_cmd 0 [] [0] 0 [] (by decide) (by decide)

/-- C7 counterexample: `decode_pkt_line` on the buffer `b"0001"` (length
prefix decoding to 1) does not raise: it returns an empty payload with
length 1. -/
theorem decodePktLine_len1_cex :
    decodePktLine [48, 48, 48, 49] = Except.ok (some [], 1) := by decide

/-- C7 amended: `decode_pkt_line` returns `(None, 0)` on flush and
`(payload, length)` otherwise — including lengths 1..3, for which the
payload is empty and no error is raised; only the packfile parser's
`_read_pktline` rejects lengths 1..3 with an error (python `ValueError`). -/
theorem pktLine_decode_behavior :
    (∀ line : List Nat, parseHex (line.take 4) = some 0 →
      decodePktLine line = Except.ok (none, 0)) ∧
    (∀ (line : List Nat) (L : Nat), parseHex (line.take 4) = some L → 1 ≤ L → L ≤ 3 →
      decodePktLine line = Except.ok (some [], L)) ∧
    (∀ (line : List Nat) (L : Nat), parseHex (line.take 4) = some L → 4 ≤ L →
      decodePktLine line = Except.ok (some ((line.take L).drop 4), L)) ∧
    (∀ (bs : List Nat) (pos L : Nat), parseHex ((bs.drop pos).take 4) = some L →
      1 ≤ L → L ≤ 3 → readPktlineS bs pos = Except.error GErr.badPktLength) := by
  refine ⟨?_, ?_, ?_, ?_⟩
  · intro line hL
    simp [decodePktLine, hL]
  · intro line L hL h1 h3
    have hL0 : ¬L = 0 := by omega
    have hempty : (line.take L).drop 4 = [] := by
      apply List.drop_eq_nil_of_le
      calc (line.take L).length ≤ L := by simp
        _ ≤ 4 := by omega
    simp [decodePktLine, hL, hL0, hempty]
  · intro line L hL h4
    have hL0 : ¬L = 0 := by omega
    simp [decodePktLine, hL, hL0]
  · intro bs pos L hL h1 h3
    have hne : ((bs.drop pos).take 4).isEmpty = false := by
      rcases h : (bs.drop pos).take 4 with _ | ⟨b, rest⟩
      · rw [h] at hL
        simp [parseHex] at hL
      · rfl
    have hL0 : ¬L = 0 := by omega
    have hlt : L < 4 := by omega
    simp [readPktlineS, readBytesS, hne, hL, hL0, hlt, exceptBind_ok]

/-- Witness for the C7 amended theorem: all four clauses exercised on
concrete buffers. -/
theorem pktLine_decode_behavior_inst :
    decodePktLine [48, 48, 48, 48] = Except.ok (none, 0) ∧
    decodePktLine [48, 48, 48, 50] = Except.ok (some [], 2) ∧
    decodePktLine [48, 48, 48, 53, 97] = Except.ok (some [97], 5) ∧
    readPktlineS [48, 48, 48, 51] 0 = Except.error GErr.badPktLength :=
  ⟨pktLine_decode_behavior.1 [48, 48, 48, 48] (by decide),
   pktLine_decode_behavior.2.1 [48, 48, 48, 50] 2 (by decide) (by decide) (by decide),
   pktLine_decode_behavior.2.2.1 [48, 48, 48, 53, 97] 5 (by decide) (by decide),
   pktLine_decode_behavior.2.2.2 [48, 48, 48, 51] 0 3 (by decide) (by decide) (by decide)⟩

/-- A successful lookup exhibits a member of the association list. -/
theorem listLookup_mem {α : Type} (m : List (String × α)) (k : String) (v : α)
    (h : listLookup m k = some v) : (k, v) ∈ m := by
  induction m with
  | nil => simp [listLookup] at h
  | cons hd tl ih =>
      obtain ⟨a, b⟩ := hd
      by_cases hak : a = k
      · subst hak
        simp [listLookup] at h
        simp [h]
      · simp only [listLookup, if_neg hak] at h
        exact List.mem_cons_of_mem _ (ih h)

/-- Members of an updated association list are the new pair or old members. -/
theorem mem_listInsert {α : Type} (k : String) (v : α) (m : List (String × α))
    (p : String × α) (h : p ∈ listInsert k v m) : p = (k, v) ∨ p ∈ m := by
  induction m with
  | nil => simpa [listInsert] using h
  | cons hd tl ih =>
      obtain ⟨a, b⟩ := hd
      by_cases hak : a = k
      · simp only [listInsert, if_pos hak, List.mem_cons] at h
        rcases h with h | h
        · exact Or.inl h
        · exact Or.inr (List.mem_cons_of_mem _ h)
      · simp only [listInsert, if_neg hak, List.mem_cons] at h
        rcases h with h | h
        · exact Or.inr (by simp [h])
        · rcases ih h with h2 | h2
          · exact Or.inl h2
          · exact Or.inr (List.mem_cons_of_mem _ h2)

/-- Lookup after an update: the updated key maps to the new value, other
keys are unchanged. -/
theorem listLookup_listInsert_gen {α : Type} (k k' : String) (v : α)
    (m : List (String × α)) :
    listLookup (listInsert k v m) k' = if k = k' then some v else listLookup m k' := by
  induction m with
  | nil => by_cases h : k = k' <;> simp [listInsert, listLookup, h]
  | cons hd tl ih =>
      obtain ⟨a, b⟩ := hd
      by_cases hak : a = k
      · subst hak
        by_cases hkk : a = k' <;> simp [listInsert, listLookup, hkk]
      · by_cases hkk : k = k'
        · subst hkk
          simp [listInsert, listLookup, hak, ih]
        · have hkk' : ¬k' = k := fun hcon => hkk hcon.symm
          by_cases hak' : a = k' <;> simp [listInsert, listLookup, hak, hak', hkk, hkk', ih]

/-- An update never removes keys. -/
theorem isSome_listInsert {α : Type} (k k' : String) (v : α) (m : List (String × α))
    (h : (listLookup m k').isSome) : (listLookup (listInsert k v m) k').isSome := by
  rw [listLookup_listInsert_gen]
  by_cases hkk : k = k' <;> simp [hkk, h]

/-- Any derivation of `ResolvesTo s p` has `s` equal to the hash of `p`. -/
theorem ResolvesTo_sha (hash : String → List Nat → String) (objects : List PackObject)
    {s : String} {p : String × List Nat} (h : ResolvesTo hash objects s p) :
    s = hash p.1 p.2 := by
  cases h with
  | base obj hmem h1 h2 => rfl
  | delta d s' t b r hmem hty hsha hbase happ => rfl

/-- With an injective hash, `ResolvesTo` is functional in the id. -/
theorem ResolvesTo_functional (hash : String → List Nat → String)
    (objects : List PackObject)
    (hinj : Function.Injective fun q : String × List Nat => hash q.1 q.2)
    {s : String} {p p' : String × List Nat}
    (h1 : ResolvesTo hash objects s p) (h2 : ResolvesTo hash objects s p') : p = p' := by
  apply hinj
  show hash p.1 p.2 = hash p'.1 p'.2
  rw [← ResolvesTo_sha hash objects h1, ← ResolvesTo_sha hash objects h2]

/-- The dict invariant survives inserting a hash-keyed resolvable object. -/
theorem BaseInv_insert (hash : String → List Nat → String) (objects : List PackObject)
    {m : List (String × PackObject)} (hB : BaseInv hash objects m) (v : PackObject)
    (k : String) (hk : k = hash v.type v.data)
    (hR : ResolvesTo hash objects k (v.type, v.data)) :
    BaseInv hash objects (listInsert k v m) := by
  intro p hp
  rcases mem_listInsert k v m p hp with h | h
  · subst h
    exact ⟨hk, hR⟩
  · exact hB p h

/-- Progress core: any resolvable id is either already in the dict, or
some pending delta has its base id in the dict. -/
theorem ready_of_resolvesTo (hash : String → List Nat → String)
    (objects : List PackObject) {m : List (String × PackObject)}
    {pending : List PackObject}
    (hN : NonDeltaInMap hash objects m) (hR : ResolvedInv hash objects m pending)
    {s : String} {p : String × List Nat} (h : ResolvesTo hash objects s p) :
    (listLookup m s).isSome ∨
      ∃ d ∈ pending, ∃ s', d.baseSha = some s' ∧ (listLookup m s').isSome := by
  induction h with
  | base obj hmem h1 h2 => exact Or.inl (hN obj hmem h1 h2)
  | delta d s' t b r hmem hty hsha hbase happ ih =>
      rcases ih with hsome | hready
      · by_cases hdp : d ∈ pending
        · exact Or.inr ⟨d, hdp, s', hsha, hsome⟩
        · exact Or.inl (hR d hmem hty hdp s' t b r hsha hbase happ)
      · exact Or.inr hready

/-- `ResolvesTo` only depends on membership in the entry list. -/
theorem ResolvesTo_perm (hash : String → List Nat → String)
    {objects objects2 : List PackObject} (hperm : List.Perm objects objects2)
    {s : String} {p : String × List Nat} (h : ResolvesTo hash objects s p) :
    ResolvesTo hash objects2 s p := by
  induction h with
  | base obj hmem h1 h2 => exact ResolvesTo.base obj (hperm.subset hmem) h1 h2
  | delta d s' t b r hmem hty hsha hbase happ ih =>
      exact ResolvesTo.delta d s' t b r (hperm.subset hmem) hty hsha ih happ

/-- Groundedness only depends on membership in the entry list. -/
theorem Grounded_perm (hash : String → List Nat → String)
    {objects objects2 : List PackObject} (hperm : List.Perm objects objects2)
    (hG : Grounded hash objects) : Grounded hash objects2 := by
  intro d hd hty
  obtain ⟨s, t, b, r, hsha, hRT, happ⟩ := hG d (hperm.symm.subset hd) hty
  exact ⟨s, t, b, r, hsha, ResolvesTo_perm hash hperm hRT, happ⟩

/-- Behaviour of one pass of the resolver under groundedness and hash
injectivity: the pass succeeds, preserves the dict invariant, never drops
dict keys, keeps a sublist of the pending deltas (all of them exactly
when no progress was made, strictly fewer on progress), deposits the
resolved object of every delta it consumed, makes progress whenever some
pending delta's base id is present, and emits only apply events. -/
theorem onePass_spec (hash : String → List Nat → String) (objects : List PackObject)
    (hinj : Function.Injective fun q : String × List Nat => hash q.1 q.2)
    (hG : Grounded hash objects) :
    ∀ (pending : List PackObject) (m : List (String × PackObject)),
      BaseInv hash objects m → PendInv objects pending →
      ∃ m2 progress remaining ev,
        onePass hash m pending = Except.ok (m2, progress, remaining, ev) ∧
        BaseInv hash objects m2 ∧
        (∀ k, (listLookup m k).isSome → (listLookup m2 k).isSome) ∧
        (∀ d ∈ remaining, d ∈ pending) ∧
        remaining.length ≤ pending.length ∧
        (progress = true → remaining.length < pending.length) ∧
        (progress = false → remaining = pending) ∧
        (∀ d ∈ pending, d ∉ remaining →
          ∀ s t b r, d.baseSha = some s → ResolvesTo hash objects s (t, b) →
            applyDelta b d.data = Except.ok r → (listLookup m2 (hash t r)).isSome) ∧
        ((∃ d ∈ pending, ∃ s, d.baseSha = some s ∧ (listLookup m s).isSome) →
          progress = true) ∧
        (∀ e ∈ ev, ∃ s, e = IngestEvent.applyDelta s) := by
  intro pending
  induction pending with
  | nil =>
      intro m hB hP
      refine ⟨m, false, [], [], rfl, hB, fun k h => h, ?_, ?_, ?_, ?_, ?_, ?_, ?_⟩
      · intro d hd
        exact absurd hd (List.not_mem_nil d)
      · simp
      · intro h
        simp at h
      · intro _
        rfl
      · intro d hd
        exact absurd hd (List.not_mem_nil d)
      · rintro ⟨d, hd, _⟩
        exact absurd hd (List.not_mem_nil d)
      · intro e he
        exact absurd he (List.not_mem_nil e)
  | cons d rest ih =>
      intro m hB hP
      have hd_obj : d ∈ objects := (hP d (List.mem_cons_self d rest)).1
      have hd_ty : d.type = "ref_delta" := (hP d (List.mem_cons_self d rest)).2
      have hP_rest : PendInv objects rest := fun x hx => hP x (List.mem_cons_of_mem d hx)
      cases hlook : listLookup m (d.baseSha.getD "") with
      | none =>
          obtain ⟨m2, p, r, ev, heq, hB2, hmono, hsub, hlen, hltp, hfp, hres, hready, hev⟩ :=
            ih m hB hP_rest
          refine ⟨m2, p, d :: r, ev, ?_, hB2, hmono, ?_, ?_, ?_, ?_, ?_, ?_, hev⟩
          · simp only [onePass, hlook, heq, exceptBind_ok]
            rfl
          · intro x hx
            rcases List.mem_cons.mp hx with rfl | hx2
            · exact List.mem_cons_self x rest
            · exact List.mem_cons_of_mem d (hsub x hx2)
          · simpa using Nat.succ_le_succ hlen
          · intro hp
            simpa using Nat.succ_lt_succ (hltp hp)
          · intro hp
            rw [hfp hp]
          · intro d' hd' hnotin s t b rr hsha hRT happ
            rcases List.mem_cons.mp hd' with rfl | hdd
            · exact absurd (List.mem_cons_self d' r) hnotin
            · have hnr : d' ∉ r := fun hc => hnotin (List.mem_cons_of_mem d hc)
              exact hres d' hdd hnr s t b rr hsha hRT happ
          · rintro ⟨d', hd', s', hsha', hsome'⟩
            rcases List.mem_cons.mp hd' with rfl | hdd
            · have hgd : d'.baseSha.getD "" = s' := by rw [hsha']; rfl
              rw [hgd] at hlook
              rw [hlook] at hsome'
              simp at hsome'
            · exact hready ⟨d', hdd, s', hsha', hsome'⟩
      | some baseObj =>
          have hmemm : (d.baseSha.getD "", baseObj) ∈ m := listLookup_mem _ _ _ hlook
          obtain ⟨hkey, hRTbase⟩ := hB _ hmemm
          obtain ⟨s, t, b, rr, hsha, hRT, happ⟩ := hG d hd_obj hd_ty
          have hgetD : d.baseSha.getD "" = s := by rw [hsha]; rfl
          have hRTbase2 : ResolvesTo hash objects s (baseObj.type, baseObj.data) := by
            rw [← hgetD]
            exact hRTbase
          have hfun := ResolvesTo_functional hash objects hinj hRTbase2 hRT
          have ht : baseObj.type = t := congrArg Prod.fst hfun
          have hb : baseObj.data = b := congrArg Prod.snd hfun
          have happ' : applyDelta baseObj.data d.data = Except.ok rr := by
            rw [hb]
            exact happ
          have hRTnew : ResolvesTo hash objects (hash baseObj.type rr) (baseObj.type, rr) :=
            ResolvesTo.delta d s baseObj.type baseObj.data rr hd_obj hd_ty hsha hRTbase2 happ'
          have hB' : BaseInv hash objects
              (listInsert (hash baseObj.type rr)
                (PackObject.mk baseObj.type rr.length rr d.offset none) m) :=
            BaseInv_insert hash objects hB
              (PackObject.mk baseObj.type rr.length rr d.offset none)
              (hash baseObj.type rr) rfl hRTnew
          obtain ⟨m2, p2, r2, ev, heq2, hB2, hmono, hsub, hlen, hltp, hfp, hres, hready, hev⟩ :=
            ih (listInsert (hash baseObj.type rr)
              (PackObject.mk baseObj.type rr.length rr d.offset none) m) hB' hP_rest
          refine ⟨m2, true, r2, IngestEvent.applyDelta (d.baseSha.getD "") :: ev,
            ?_, hB2, ?_, ?_, ?_, ?_, ?_, ?_, ?_, ?_⟩
          · simp only [onePass, hlook, happ', exceptBind_ok, heq2]
            rfl
          · intro k hk
            exact hmono k (isSome_listInsert _ _ _ _ hk)
          · intro x hx
            exact List.mem_cons_of_mem d (hsub x hx)
          · exact hlen.trans (Nat.le_succ _)
          · intro _
            exact Nat.lt_succ_of_le hlen
          · intro hp
            simp at hp
          · intro d' hd' hnotin s' t' b' r' hsha' hRT' happ''
            rcases List.mem_cons.mp hd' with rfl | hdd
            · have hs : s = s' := Option.some.inj (hsha.symm.trans hsha')
              have hRT'2 : ResolvesTo hash objects s (t', b') := by
                rw [hs]
                exact hRT'
              have hfun2 := ResolvesTo_functional hash objects hinj hRT'2 hRT
              have ht2 : t' = t := congrArg Prod.fst hfun2
              have hb2 : b' = b := congrArg Prod.snd hfun2
              have hr2 : r' = rr := by
                rw [hb2] at happ''
                rw [← hb] at happ''
                exact Except.ok.inj (happ''.symm.trans happ')
              rw [ht2, hr2, ← ht]
              apply hmono
              rw [listLookup_listInsert_gen]
              simp
            · have hnr : d' ∉ r2 := hnotin
              exact hres d' hdd hnr s' t' b' r' hsha' hRT' happ''
          · intro _
            rfl
          · intro e he
            rcases List.mem_cons.mp he with rfl | he2
            · exact ⟨d.baseSha.getD "", rfl⟩
            · exact hev e he2

/-- The fixpoint loop succeeds whenever all pending deltas are grounded,
the dict invariants hold, and the fuel exceeds the pending count. -/
theorem resolveLoop_ok (hash : String → List Nat → String) (objects : List PackObject)
    (hinj : Function.Injective fun q : String × List Nat => hash q.1 q.2)
    (hG : Grounded hash objects) :
    ∀ (fuel : Nat) (pending : List PackObject) (m : List (String × PackObject)),
      pending.length < fuel →
      BaseInv hash objects m → PendInv objects pending →
      NonDeltaInMap hash objects m → ResolvedInv hash objects m pending →
      ∃ m2 ev, resolveLoop hash fuel m pending = Except.ok (m2, ev) ∧
        (∀ e ∈ ev, ∃ s, e = IngestEvent.applyDelta s) := by
  intro fuel
  induction fuel with
  | zero =>
      intro pending m hlt
      exact absurd hlt (Nat.not_lt_zero _)
  | succ fuel ih =>
      intro pending m hlt hB hP hN hR
      rcases pending with _ | ⟨d0, rest0⟩
      · refine ⟨m, [], ?_, ?_⟩
        · simp [resolveLoop]
        · intro e he
          exact absurd he (List.not_mem_nil e)
      · obtain ⟨m2, progress, remaining, ev, heq, hB2, hmono, hsub, hlen, hltp, hfp, hres,
          hready, hev⟩ := onePass_spec hash objects hinj hG (d0 :: rest0) m hB hP
        have hprog : progress = true := by
          obtain ⟨s0, t0, b0, r0, hsha0, hRT0, happ0⟩ :=
            hG d0 (hP d0 (List.mem_cons_self d0 rest0)).1
              (hP d0 (List.mem_cons_self d0 rest0)).2
          rcases ready_of_resolvesTo hash objects hN hR hRT0 with
            hsome | ⟨d1, hd1, s1, hsha1, hsome1⟩
          · exact hready ⟨d0, List.mem_cons_self d0 rest0, s0, hsha0, hsome⟩
          · exact hready ⟨d1, hd1, s1, hsha1, hsome1⟩
        subst hprog
        have hP2 : PendInv objects remaining := fun x hx => hP x (hsub x hx)
        have hN2 : NonDeltaInMap hash objects m2 := fun o ho hh1 hh2 => hmono _ (hN o ho hh1 hh2)
        have hR2 : ResolvedInv hash objects m2 remaining := by
          intro d' hd' hty' hnotin s t b r hsha hRT happ
          by_cases hdp : d' ∈ d0 :: rest0
          · exact hres d' hdp hnotin s t b r hsha hRT happ
          · exact hmono _ (hR d' hd' hty' hdp s t b r hsha hRT happ)
        have hlt2 : remaining.length < fuel :=
          lt_of_lt_of_le (hltp rfl) (Nat.lt_succ_iff.mp hlt)
        obtain ⟨m3, ev2, heq2, hev2⟩ := ih remaining m2 hlt2 hB2 hP2 hN2 hR2
        refine ⟨m3, ev ++ ev2, ?_, ?_⟩
        · simp [resolveLoop, heq, exceptBind_ok, heq2]
        · intro e he
          rcases List.mem_append.mp he with h | h
          · exact hev e h
          · exact hev2 e h

/-- Behaviour of the entry-splitting loop: the dict invariant and
pending invariant hold for the result, dict keys are never dropped, every
scanned non-delta entry is in the dict, and every scanned ref-delta entry
is pending. -/
theorem collectBases_spec (hash : String → List Nat → String) (objects : List PackObject) :
    ∀ (objs : List PackObject) (acc : List (String × PackObject)) (ds : List PackObject),
      (∀ o ∈ objs, o ∈ objects) →
      BaseInv hash objects acc → PendInv objects ds →
      BaseInv hash objects (collectBases hash acc ds objs).1 ∧
      PendInv objects (collectBases hash acc ds objs).2 ∧
      (∀ k, (listLookup acc k).isSome →
        (listLookup (collectBases hash acc ds objs).1 k).isSome) ∧
      (∀ o ∈ objs, o.type ≠ "ofs_delta" → o.type ≠ "ref_delta" →
        (listLookup (collectBases hash acc ds objs).1 (hash o.type o.data)).isSome) ∧
      (∀ d ∈ ds, d ∈ (collectBases hash acc ds objs).2) ∧
      (∀ d ∈ objs, d.type = "ref_delta" → d ∈ (collectBases hash acc ds objs).2) := by
  intro objs
  induction objs with
  | nil =>
      intro acc ds hsub hB hP
      refine ⟨hB, hP, fun k h => h, ?_, fun d hd => hd, ?_⟩
      · intro o ho
        exact absurd ho (List.not_mem_nil o)
      · intro d hd
        exact absurd hd (List.not_mem_nil d)
  | cons o rest ih =>
      intro acc ds hsub hB hP
      have ho_obj : o ∈ objects := hsub o (List.mem_cons_self o rest)
      have hsub' : ∀ x ∈ rest, x ∈ objects := fun x hx => hsub x (List.mem_cons_of_mem o hx)
      by_cases h1 : o.type = "ofs_delta"
      · have hcb : collectBases hash acc ds (o :: rest) = collectBases hash acc ds rest := by
          simp [collectBases, h1]
        obtain ⟨c1, c2, c3, c4, c5, c6⟩ := ih acc ds hsub' hB hP
        rw [hcb]
        refine ⟨c1, c2, c3, ?_, c5, ?_⟩
        · intro o' ho' ho1 ho2
          rcases List.mem_cons.mp ho' with rfl | ho3
          · exact absurd h1 ho1
          · exact c4 o' ho3 ho1 ho2
        · intro d hd hty
          rcases List.mem_cons.mp hd with rfl | hd2
          · exact absurd (h1.symm.trans hty) (by decide)
          · exact c6 d hd2 hty
      · by_cases h2 : o.type = "ref_delta"
        · have hcb : collectBases hash acc ds (o :: rest) =
              collectBases hash acc (ds ++ [o]) rest := by
            simp [collectBases, h1, h2]
          have hP' : PendInv objects (ds ++ [o]) := by
            intro x hx
            rcases List.mem_append.mp hx with hx1 | hx2
            · exact hP x hx1
            · have hxo := List.mem_singleton.mp hx2
              subst hxo
              exact ⟨ho_obj, h2⟩
          obtain ⟨c1, c2, c3, c4, c5, c6⟩ := ih acc (ds ++ [o]) hsub' hB hP'
          rw [hcb]
          refine ⟨c1, c2, c3, ?_, ?_, ?_⟩
          · intro o' ho' ho1 ho2
            rcases List.mem_cons.mp ho' with rfl | ho3
            · exact absurd h2 ho2
            · exact c4 o' ho3 ho1 ho2
          · intro d hd
            exact c5 d (List.mem_append.mpr (Or.inl hd))
          · intro d hd hty
            rcases List.mem_cons.mp hd with rfl | hd2
            · exact c5 d (List.mem_append.mpr (Or.inr (List.mem_singleton.mpr rfl)))
            · exact c6 d hd2 hty
        · have hcb : collectBases hash acc ds (o :: rest) =
              collectBases hash (listInsert (hash o.type o.data) o acc) ds rest := by
            simp [collectBases, h1, h2]
          have hB' : BaseInv hash objects (listInsert (hash o.type o.data) o acc) :=
            BaseInv_insert hash objects hB o (hash o.type o.data) rfl
              (ResolvesTo.base o ho_obj h1 h2)
          obtain ⟨c1, c2, c3, c4, c5, c6⟩ :=
            ih (listInsert (hash o.type o.data) o acc) ds hsub' hB' hP
          rw [hcb]
          refine ⟨c1, c2, ?_, ?_, c5, ?_⟩
          · intro k hk
            exact c3 k (isSome_listInsert _ _ _ _ hk)
          · intro o' ho' ho1 ho2
            rcases List.mem_cons.mp ho' with rfl | ho3
            · apply c3
              rw [listLookup_listInsert_gen]
              simp
            · exact c4 o' ho3 ho1 ho2
          · intro d hd hty
            rcases List.mem_cons.mp hd with rfl | hd2
            · exact absurd hty h2
            · exact c6 d hd2 hty

/-- With an injective hash and a grounded pack, the resolver succeeds. -/
theorem resolveDeltas_ok_of_grounded (hash : String → List Nat → String)
    (objects : List PackObject)
    (hinj : Function.Injective fun q : String × List Nat => hash q.1 q.2)
    (hG : Grounded hash objects) :
    ∃ out, resolveDeltas hash objects = Except.ok out := by
  obtain ⟨c1, c2, c3, c4, c5, c6⟩ := collectBases_spec hash objects objects [] []
    (fun o ho => ho) (fun p hp => absurd hp (List.not_mem_nil p))
    (fun d hd => absurd hd (List.not_mem_nil d))
  rcases hsplit : collectBases hash [] [] objects with ⟨m0, ds0⟩
  rw [hsplit] at c1 c2 c4 c6
  have hN0 : NonDeltaInMap hash objects m0 := fun o ho hh1 hh2 => c4 o ho hh1 hh2
  have hR0 : ResolvedInv hash objects m0 ds0 := by
    intro d hd hty hnotin s t b r _ _ _
    exact absurd (c6 d hd hty) hnotin
  obtain ⟨m2, ev, heq, _⟩ := resolveLoop_ok hash objects hinj hG (ds0.length + 1) ds0 m0
    (Nat.lt_succ_self _) c1 c2 hN0 hR0
  refine ⟨m2.map Prod.snd, ?_⟩
  simp [resolveDeltas, resolveDeltasTr, hsplit, heq, exceptBind_ok, Except.map]

/-- C1: for every pack-entry list whose ref-delta entries are all grounded
in non-delta entries of the same pack (with the content hash injective),
the resolver resolves every delta and succeeds, regardless of the order of
the entries (any permutation also succeeds, across one or more passes);
and whenever a full pass makes no progress while deltas remain pending,
the loop fails with the unresolved-delta error. -/
theorem resolveDeltas_grounded_complete (hash : String → List Nat → String)
    (objects : List PackObject)
    (hinj : Function.Injective fun q : String × List Nat => hash q.1 q.2)
    (hG : Grounded hash objects) :
    (∃ out, resolveDeltas hash objects = Except.ok out) ∧
    (∀ objects2, List.Perm objects objects2 →
      ∃ out2, resolveDeltas hash objects2 = Except.ok out2) ∧
    (∀ (fuel : Nat) (m m2 : List (String × PackObject))
        (pending remaining : List PackObject) (ev : List IngestEvent),
      pending ≠ [] → remaining ≠ [] →
      onePass hash m pending = Except.ok (m2, false, remaining, ev) →
      resolveLoop hash (fuel + 1) m pending = Except.error GErr.unresolvedDelta) := by
  refine ⟨resolveDeltas_ok_of_grounded hash objects hinj hG, ?_, ?_⟩
  · intro objects2 hperm
    exact resolveDeltas_ok_of_grounded hash objects2 hinj (Grounded_perm hash hperm hG)
  · intro fuel m m2 pending remaining ev hpne hrne heq
    rcases pending with _ | ⟨d0, rest0⟩
    · exact absurd rfl hpne
    · simp [resolveLoop, heq, exceptBind_ok, hrne]

/-- `Char.toNat` is injective. -/
theorem charToNat_injective : Function.Injective Char.toNat :=
  fun _ _ h => Char.ext (UInt32.ext h)

/-- The stand-in hash `wHash` is injective. -/
theorem wHash_injective : Function.Injective fun q : String × List Nat => wHash q.1 q.2 := by
  rintro ⟨t1, d1⟩ ⟨t2, d2⟩ h
  have hlen := congrArg (fun s : String => s.data.length) h
  simp only [wHash, List.length_replicate] at hlen
  have hp := Nat.pair_eq_pair.mp hlen
  have h1 := Encodable.encode_injective hp.1
  have h2 := Encodable.encode_injective hp.2
  have hdata : t1.data = t2.data := (List.map_injective_iff.mpr charToNat_injective) h1
  have hstr : t1 = t2 := congrArg String.mk hdata
  have h2d : d1 = d2 := h2
  rw [hstr, h2d]

/-- Witness for the C1 theorem: a two-entry pack with the delta placed
before its base, under the injective stand-in hash, resolves. -/
theorem resolveDeltas_grounded_complete_inst :
    ∃ out, resolveDeltas wHash
      [PackObject.mk "ref_delta" 2 [0, 0] 0 (some (wHash "blob" [])),
        PackObject.mk "blob" 0 [] 8 none] = Except.ok out :=
  (resolveDeltas_grounded_complete wHash
    [PackObject.mk "ref_delta" 2 [0, 0] 0 (some (wHash "blob" [])),
      PackObject.mk "blob" 0 [] 8 none] wHash_injective
    (by
      intro d hd hty
      rcases List.mem_cons.mp hd with rfl | hd2
      · refine ⟨wHash "blob" [], "blob", [], [], rfl, ?_, by decide⟩
        exact ResolvesTo.base (PackObject.mk "blob" 0 [] 8 none)
          (List.mem_cons_of_mem _ (List.mem_singleton.mpr rfl)) (by decide) (by decide)
      · have hxo := List.mem_singleton.mp hd2
        subst hxo
        exact absurd hty (by decide))).1

/-- All events emitted by one resolver pass are delta applications. -/
theorem onePass_events (hash : String → List Nat → String) :
    ∀ (pending : List PackObject) (m m2 : List (String × PackObject)) (p : Bool)
      (r : List PackObject) (ev : List IngestEvent),
      onePass hash m pending = Except.ok (m2, p, r, ev) →
      ∀ e ∈ ev, ∃ s, e = IngestEvent.applyDelta s := by
  intro pending
  induction pending with
  | nil =>
      intro m m2 p r ev heq e he
      simp only [onePass, Except.ok.injEq, Prod.mk.injEq] at heq
      obtain ⟨_, _, _, h4⟩ := heq
      rw [← h4] at he
      exact absurd he (List.not_mem_nil e)
  | cons d rest ih =>
      intro m m2 p r ev heq e he
      cases hlook : listLookup m (d.baseSha.getD "") with
      | none =>
          simp only [onePass, hlook] at heq
          cases hrec : onePass hash m rest with
          | error err => simp [hrec, exceptBind_error] at heq
          | ok tup =>
              obtain ⟨b2, p2, r2, ev2⟩ := tup
              simp only [hrec, exceptBind_ok, exceptPure, Except.ok.injEq,
                Prod.mk.injEq] at heq
              obtain ⟨rfl, rfl, rfl, rfl⟩ := heq
              exact ih _ _ _ _ _ hrec e he
      | some baseObj =>
          simp only [onePass, hlook] at heq
          cases happ : applyDelta baseObj.data d.data with
          | error err => simp [happ, exceptBind_error] at heq
          | ok resolved =>
              simp only [happ, exceptBind_ok] at heq
              cases hrec : onePass hash (listInsert (hash baseObj.type resolved)
                  (PackObject.mk baseObj.type resolved.length resolved d.offset none) m)
                  rest with
              | error err => simp [hrec, exceptBind_error] at heq
              | ok tup =>
                  obtain ⟨b2, p2, r2, ev2⟩ := tup
                  simp only [hrec, exceptBind_ok, exceptPure, Except.ok.injEq,
                    Prod.mk.injEq] at heq
                  obtain ⟨rfl, rfl, rfl, rfl⟩ := heq
                  rcases List.mem_cons.mp he with rfl | he2
                  · exact ⟨d.baseSha.getD "", rfl⟩
                  · exact ih _ _ _ _ _ hrec e he2

/-- All events emitted by the resolver loop are delta applications. -/
theorem resolveLoop_events (hash : String → List Nat → String) :
    ∀ (fuel : Nat) (pending : List PackObject) (m m2 : List (String × PackObject))
      (ev : List IngestEvent),
      resolveLoop hash fuel m pending = Except.ok (m2, ev) →
      ∀ e ∈ ev, ∃ s, e = IngestEvent.applyDelta s := by
  intro fuel
  induction fuel with
  | zero =>
      intro pending m m2 ev heq
      simp [resolveLoop] at heq
  | succ fuel ih =>
      intro pending m m2 ev heq e he
      simp only [resolveLoop] at heq
      by_cases hpe : pending.isEmpty = true
      · rw [if_pos hpe] at heq
        simp only [Except.ok.injEq, Prod.mk.injEq] at heq
        obtain ⟨rfl, rfl⟩ := heq
        exact absurd he (List.not_mem_nil e)
      · rw [if_neg hpe] at heq
        cases hop : onePass hash m pending with
        | error err => simp [hop, exceptBind_error] at heq
        | ok tup =>
            obtain ⟨b, progress, remaining, ev1⟩ := tup
            simp only [hop, exceptBind_ok] at heq
            by_cases hcond : progress = false ∧ remaining ≠ []
            · rw [if_pos hcond] at heq
              exact absurd heq (by simp)
            · rw [if_neg hcond] at heq
              cases hrl : resolveLoop hash fuel b remaining with
              | error err => simp [hrl, exceptBind_error] at heq
              | ok tup2 =>
                  obtain ⟨m3, ev2⟩ := tup2
                  simp only [hrl, exceptBind_ok, exceptPure, Except.ok.injEq,
                    Prod.mk.injEq] at heq
                  obtain ⟨rfl, rfl⟩ := heq
                  rcases List.mem_append.mp he with hmem | hmem
                  · exact onePass_events hash pending m b progress remaining ev1 hop e hmem
                  · exact ih _ _ _ _ hrl e hmem

/-- C2 counterexample: for the two-entry pack `[ref_delta(base = blob),
blob]` the ingest trace is `[apply, write base, write resolved]`: the
non-delta base object's store write happens strictly AFTER the delta
instruction stream is applied, because the resolver hashes with
`should_write=False` and `clone` writes objects only after
`parse_packfile` has completed. -/
theorem cloneIngest_write_order_cex :
    cloneIngestEvents
      [PackObject.mk "ref_delta" 4 [0, 1, 1, 65] 0 (some (gitHash "blob" [])),
        PackObject.mk "blob" 0 [] 8 none] =
    Except.ok [IngestEvent.applyDelta (gitHash "blob" []),
      IngestEvent.writeStore (gitHash "blob" []),
      IngestEvent.writeStore (gitHash "blob" [65])] := by decide

/-- C2 amended: during clone's ingest NO object is written to the store
until delta resolution has completed: every successful ingest trace is a
block of delta-application events followed by a block of store-write
events (one write per materialized object, emitted by clone's final
loop). -/
theorem cloneIngest_applies_precede_writes :
    ∀ (objects : List PackObject) (tr : List IngestEvent),
      cloneIngestEvents objects = Except.ok tr →
      ∃ applies writes, tr = applies ++ writes ∧
        (∀ e ∈ applies, ∃ s, e = IngestEvent.applyDelta s) ∧
        (∀ e ∈ writes, ∃ i, e = IngestEvent.writeStore i) := by
  intro objects tr heq
  cases hres : resolveDeltasTr gitHash objects with
  | error err => simp [cloneIngestEvents, hres, exceptBind_error] at heq
  | ok pr =>
      obtain ⟨out, ev⟩ := pr
      simp only [cloneIngestEvents, hres, exceptBind_ok, exceptPure,
        Except.ok.injEq] at heq
      subst heq
      refine ⟨ev, _, rfl, ?_, ?_⟩
      · rcases hsplit : collectBases gitHash [] [] objects with ⟨m0, ds0⟩
        simp only [resolveDeltasTr, hsplit] at hres
        cases hrl : resolveLoop gitHash (ds0.length + 1) m0 ds0 with
        | error err => simp [hrl, exceptBind_error] at hres
        | ok tup =>
            obtain ⟨m2, ev0⟩ := tup
            simp only [hrl, exceptBind_ok, exceptPure, Except.ok.injEq,
              Prod.mk.injEq] at hres
            obtain ⟨rfl, rfl⟩ := hres
            intro e he
            exact resolveLoop_events gitHash (ds0.length + 1) ds0 m0 m2 ev0 hrl e he
      · intro e he
        simp only [List.mem_map] at he
        obtain ⟨o, _, hoe⟩ := he
        exact ⟨gitHash o.type o.data, hoe.symm⟩

/-- Witness for the C2 amended theorem on the concrete two-entry pack. -/
theorem cloneIngest_applies_precede_writes_inst :
    ∃ applies writes,
      ([IngestEvent.applyDelta (gitHash "blob" []),
        IngestEvent.writeStore (gitHash "blob" []),
        IngestEvent.writeStore (gitHash "blob" [65])] : List IngestEvent) =
        applies ++ writes ∧
      (∀ e ∈ applies, ∃ s, e = IngestEvent.applyDelta s) ∧
      (∀ e ∈ writes, ∃ i, e = IngestEvent.writeStore i) :=
  cloneIngest_applies_precede_writes
    [PackObject.mk "ref_delta" 4 [0, 1, 1, 65] 0 (some (gitHash "blob" [])),
      PackObject.mk "blob" 0 [] 8 none]
    [IngestEvent.applyDelta (gitHash "blob" []),
      IngestEvent.writeStore (gitHash "blob" []),
      IngestEvent.writeStore (gitHash "blob" [65])] (by decide)

/-- C5 counterexample: a pack entry header byte with type_id 5 (byte 0x50)
is decoded without error as type `unknown_5`, and an object carrying such
a type is silently accepted by the resolver as a base object and returned
among the materialized objects — there is no UnknownType failure. -/
theorem unknownType_cex :
    readVarint [80] 0 = Except.ok ((0, "unknown_5"), 1) ∧
    resolveDeltas gitHash [PackObject.mk "unknown_5" 3 [1, 2, 3] 0 none] =
      Except.ok [PackObject.mk "unknown_5" 3 [1, 2, 3] 0 none] := by
  constructor
  · decide
  · decide

/-- C5 amended: a type_id outside 1, 2, 3, 4, 6, 7 is mapped to the type
string `unknown_<id>` (dict `.get` default) without any error, and the
resolver treats every entry whose type is neither `ofs_delta` nor
`ref_delta` — the unknown types included — as a non-delta base object
that is accepted into the materialized set. -/
theorem unknownType_accepted (b : Nat) (hb : b < 128)
    (h1 : (b >>> 4) &&& 7 ≠ 1) (h2 : (b >>> 4) &&& 7 ≠ 2) (h3 : (b >>> 4) &&& 7 ≠ 3)
    (h4 : (b >>> 4) &&& 7 ≠ 4) (h6 : (b >>> 4) &&& 7 ≠ 6)
    (h7 : (b >>> 4) &&& 7 ≠ 7) :
    readVarint [b] 0 =
      Except.ok ((b &&& 15, "unknown_" ++ toString ((b >>> 4) &&& 7)), 1) ∧
    ∀ (hash : String → List Nat → String) (obj : PackObject),
      obj.type ≠ "ofs_delta" → obj.type ≠ "ref_delta" →
      resolveDeltas hash [obj] = Except.ok [obj] := by
  constructor
  · have hand : b &&& 128 = 0 := by
      have h7b : b.testBit 7 = false := Nat.testBit_eq_false_of_lt (by omega)
      have ha := Nat.and_two_pow b 7
      norm_num at ha
      rw [ha, h7b]
      rfl
    simp [readVarint, getByteE, typeName, hand, h1, h2, h3, h4, h6, h7, exceptBind_ok,
      exceptPure]
  · intro hash obj hty1 hty2
    have hcb : collectBases hash [] [] [obj] =
        ([(hash obj.type obj.data, obj)], []) := by
      simp [collectBases, hty1, hty2, listInsert]
    simp [resolveDeltas, resolveDeltasTr, hcb, resolveLoop, exceptBind_ok, exceptPure,
      Except.map]

/-- Witness for the C5 amended theorem: header byte 0x50 and an
unknown-typed object passing through the resolver. -/
theorem unknownType_accepted_inst :
    readVarint [80] 0 =
      Except.ok ((80 &&& 15, "unknown_" ++ toString ((80 >>> 4) &&& 7)), 1) ∧
    resolveDeltas gitHash [PackObject.mk "unknown_9" 0 [] 0 none] =
      Except.ok [PackObject.mk "unknown_9" 0 [] 0 none] :=
  ⟨(unknownType_accepted 80 (by decide) (by decide) (by decide) (by decide) (by decide)
      (by decide) (by decide)).1,
   (unknownType_accepted 80 (by decide) (by decide) (by decide) (by decide) (by decide)
      (by decide) (by decide)).2 gitHash (PackObject.mk "unknown_9" 0 [] 0 none)
      (by decide) (by decide)⟩

/-- C6 counterexample: a tree with a single entry of mode `123` (not one
of 40000/100644/100755/120000) pointing at a blob checks out WITHOUT any
UnsupportedMode error: the entry falls into the file branch, the blob is
written and chmod-ed to `0o123` = 83. -/
theorem checkout_mode_cex :
    checkoutTree [("t0", ("tree", bytesOfString "123 f" ++ [0] ++ List.replicate 20 0)),
      ("0000000000000000000000000000000000000000", ("blob", [104, 105]))] "t0" "" 9 =
    Except.ok [FsAction.writeAct "f" [104, 105], FsAction.chmodAct "f" 83] := by decide

/-- C6 amended: during checkout only mode `40000` selects the directory
branch; EVERY other mode string is treated as a file entry — its object
must be a blob and the mode is parsed as octal for the chmod — with no
UnsupportedMode validation anywhere. -/
theorem checkoutEntries_mode_fallthrough (fuel : Nat)
    (store : List (String × String × List Nat)) (mode name sha : String)
    (rest : List (String × String × String)) (path : String) (bs : List Nat)
    (hmode : mode ≠ "40000") (hread : listLookup store sha = some ("blob", bs))
    (md : Nat) (hoct : parseOctal mode = some md) :
    checkoutEntries (fuel + 1) store ((mode, name, sha) :: rest) path =
      (checkoutEntries fuel store rest path).map
        (fun acts => FsAction.writeAct (pathJoin path name) bs ::
          FsAction.chmodAct (pathJoin path name) md :: acts) := by
  have hro : readGitObject store sha = Except.ok ("blob", bs) := by
    simp [readGitObject, hread]
  cases hrest : checkoutEntries fuel store rest path with
  | error err =>
      simp [checkoutEntries, hmode, hro, hoct, hrest, exceptBind_error, exceptBind_ok,
        Except.map]
  | ok acts =>
      simp [checkoutEntries, hmode, hro, hoct, hrest, exceptBind_ok, exceptPure,
        Except.map]

/-- Witness for the C6 amended theorem on a one-entry store. -/
theorem checkoutEntries_mode_fallthrough_inst :
    checkoutEntries 1 [("00", ("blob", [104]))] [("123", "f", "00")] "" =
      (checkoutEntries 0 [("00", ("blob", [104]))] [] "").map
        (fun acts => FsAction.writeAct (pathJoin "" "f") [104] ::
          FsAction.chmodAct (pathJoin "" "f") 83 :: acts) :=
  checkoutEntries_mode_fallthrough 0 [("00", ("blob", [104]))] "123" "f" "00" [] "" [104]
    (by decide) (by decide) 83 (by decide)

/-- Nonempty lists are not `isEmpty`. -/
theorem isEmpty_eq_false_of_pos {α : Type} (l : List α) (h : 0 < l.length) :
    l.isEmpty = false := by
  cases l with
  | nil => simp at h
  | cons x xs => rfl

/-- C10: when the `PACK` signature occurs at or after the cursor, the
pre-pack scan terminates with the cursor exactly at the first occurrence,
advancing one byte per mismatching full read (any fuel above the distance
suffices); and on an input without the signature the scan never
terminates (it loops forever, modelled by exhausting every fuel). -/
theorem skipUntilPack_finds_first :
    (∀ (bs : List Nat) (c p : Nat),
      c ≤ p → (bs.drop p).take 4 = packSig →
      (∀ q, c ≤ q → q < p → (bs.drop q).take 4 ≠ packSig) →
      ∀ fuel, p - c < fuel → skipUntilPack bs fuel c = Except.ok p) ∧
    (∀ fuel, skipUntilPack [1, 2, 3] fuel 0 = Except.error GErr.outOfFuel) := by
  constructor
  · intro bs c p hcp hocc hfirst fuel
    revert c
    induction fuel with
    | zero =>
        intro c hcp hfirst hflt
        exact absurd hflt (Nat.not_lt_zero _)
    | succ fuel ih =>
        intro c hcp hfirst hflt
        have hlenp : p + 4 ≤ bs.length := by
          have hl := congrArg List.length hocc
          simp [List.length_take, List.length_drop, packSig] at hl
          omega
        by_cases hc : c = p
        · subst hc
          have hne : ((bs.drop c).take 4).isEmpty = false := by
            apply isEmpty_eq_false_of_pos
            rw [hocc]
            simp [packSig]
          simp [skipUntilPack, hne, hocc]
          decide
        · have hclt : c < p := lt_of_le_of_ne hcp hc
          have hlen4 : ((bs.drop c).take 4).length = 4 := by
            simp only [List.length_take, List.length_drop]
            omega
          have hne : ((bs.drop c).take 4).isEmpty = false :=
            isEmpty_eq_false_of_pos _ (by rw [hlen4]; omega)
          have hneq : ¬((bs.drop c).take 4 = packSig) := hfirst c (le_refl c) hclt
          have h3 : ¬(c + 4 < 3) := by omega
          have harg : c + 4 - 3 = c + 1 := by omega
          simp only [skipUntilPack, hne, hneq, hlen4, h3, harg, Bool.false_eq_true,
            if_false, ite_false]
          exact ih (c + 1) (by omega) (fun q hq hqp => hfirst q (by omega) hqp) (by omega)
  · intro fuel
    induction fuel with
    | zero => rfl
    | succ n ih => exact ih

/-- Witness for the C10 theorem: sideband bytes `[1, 2]` precede `PACK`;
the scan lands on position 2 with fuel 3. -/
theorem skipUntilPack_finds_first_inst :
    skipUntilPack [1, 2, 80, 65, 67, 75, 9] 3 0 = Except.ok 2 :=
  skipUntilPack_finds_first.1 [1, 2, 80, 65, 67, 75, 9] 0 2 (by decide) (by decide)
    (by
      intro q hq0 hq2
      have hq : q = 0 ∨ q = 1 := by omega
      rcases hq with rfl | rfl
      · decide
      · decide)
    3 (by decide)
